import Mathlib

/-!
Shallow embedding of `words search/klasifikator_enchanted.py` from the
CityCarCheck repository, together with theorems settling the spec claims
about its scoring-and-labeling engine.

Modelling conventions:
* Python strings are Lean `String`s; character-level operations work on
  `String.data : List Char`.
* `str.lower()` and `unicodedata` are modelled character-wise on an explicit
  finite table of characters (ASCII plus the accented Latin letters relevant
  to the repository's Slovak-language documents); characters outside the
  table are fixed points, matching Python on the modelled domain.
* `fuzz.ratio` returns a float in [0, 100]; it is modelled as an abstract
  function into `ℚ`, supplied as a parameter (`Config.ratio`), since the
  engine only compares it against the threshold.  The module-level flag
  `HAS_RAPIDFUZZ` is the parameter `Config.hasRF`.
* The filesystem is a list of `(path, contents)` pairs.  `os.rename` may
  raise `OSError`; whether a given rename raises is modelled by the oracle
  `Config.renameOk`, and fallible operations return `Except String`.
-/

namespace CityCarCheck

/-- Combining diacritical marks: the Unicode block U+0300–U+036F, which is
where every mark produced by the NFKD table below lives.  Models
`unicodedata.combining(ch) != 0` on the modelled domain. -/
def pyCombining (c : Char) : Bool := 0x300 ≤ c.toNat && c.toNat ≤ 0x36F

/-- Character-level table for Python `str.lower()`: ASCII uppercase plus the
accented uppercase Latin letters in the modelled domain. -/
def lowerTable : List (Char × Char) :=
  [('A','a'), ('B','b'), ('C','c'), ('D','d'), ('E','e'), ('F','f'), ('G','g'),
   ('H','h'), ('I','i'), ('J','j'), ('K','k'), ('L','l'), ('M','m'), ('N','n'),
   ('O','o'), ('P','p'), ('Q','q'), ('R','r'), ('S','s'), ('T','t'), ('U','u'),
   ('V','v'), ('W','w'), ('X','x'), ('Y','y'), ('Z','z'),
   ('Á','á'), ('É','é'), ('Í','í'), ('Ó','ó'), ('Ú','ú'), ('Ý','ý'),
   ('Č','č'), ('Š','š'), ('Ž','ž'), ('Ť','ť'), ('Ď','ď'), ('Ľ','ľ'),
   ('Ä','ä'), ('Ô','ô')]

/-- `str.lower()` on one character (identity off the modelled table, as in
Python for unmodelled characters such as digits and punctuation). -/
def pyLowerChar (c : Char) : Char := (lowerTable.lookup c).getD c

/-- `str.lower()` on a whole string. -/
def pyLower (s : String) : String := ⟨s.data.map pyLowerChar⟩

/-- Character-level table for `unicodedata.normalize("NFKD", ·)` on the
modelled domain: each precomposed accented lowercase letter decomposes into
its base letter followed by a combining mark (acute U+0301, caron U+030C,
diaeresis U+0308, circumflex U+0302). -/
def nfkdTable : List (Char × List Char) :=
  [('á', ['a', '́']), ('é', ['e', '́']), ('í', ['i', '́']),
   ('ó', ['o', '́']), ('ú', ['u', '́']), ('ý', ['y', '́']),
   ('č', ['c', '̌']), ('š', ['s', '̌']), ('ž', ['z', '̌']),
   ('ť', ['t', '̌']), ('ď', ['d', '̌']), ('ľ', ['l', '̌']),
   ('ä', ['a', '̈']), ('ô', ['o', '̂'])]

/-- NFKD decomposition of one character (identity off the table).  The NFKD
canonical-reordering step only permutes combining marks, which the caller
strips, so the string-level normalization is character-wise. -/
def pyNFKDChar (c : Char) : List Char := (nfkdTable.lookup c).getD [c]

/-- `normalize_text` (klasifikator_enchanted.py lines 15–19): lower-case,
NFKD-decompose, then drop combining marks. -/
def normalize_text (s : String) : String :=
  ⟨((s.data.map pyLowerChar).flatMap pyNFKDChar).filter (fun c => !pyCombining c)⟩

/-- One character of the regex class `\w` (`WORD_RE`, line 13): letters,
digits, underscore.  `Char.isAlphanum` covers the ASCII letters and digits,
which is the whole alphabet produced by `normalize_text` on the modelled
domain. -/
def wordChar (c : Char) : Bool := c.isAlphanum || c = '_'

/-- Splitter for `WORD_RE.findall`: collects maximal runs of word
characters.  `acc` holds the current run, reversed. -/
def tokenizeAux : List Char → List Char → List String
  | [], acc => if acc.isEmpty then [] else [⟨acc.reverse⟩]
  | c :: cs, acc =>
    if wordChar c then tokenizeAux cs (c :: acc)
    else if acc.isEmpty then tokenizeAux cs []
    else ⟨acc.reverse⟩ :: tokenizeAux cs []

/-- `tokenize` (lines 21–23): normalize, then `WORD_RE.findall`. -/
def tokenize (text : String) : List String :=
  tokenizeAux (normalize_text text).data []

/-- `find_exact_word_positions` (lines 25–26):
`[i for i, t in enumerate(tokens) if t == keyword]`. -/
def find_exact_word_positions (tokens : List String) (keyword : String) : List ℕ :=
  (tokens.enum.filter (fun p => p.2 == keyword)).map (·.1)

/-- `fuzzy_token_hits` (lines 28–36), with `HAS_RAPIDFUZZ` and `fuzz.ratio`
passed in as parameters. -/
def fuzzy_token_hits (hasRF : Bool) (ratio : String → String → ℚ)
    (tokens : List String) (keyword : String) (threshold : ℚ) :
    List (ℕ × String × ℚ) :=
  if !hasRF then []
  else tokens.enum.filterMap (fun p =>
    if ratio p.2 keyword ≥ threshold then some (p.1, p.2, ratio p.2 keyword)
    else none)

/-- Value of `details["words"][kw]`. -/
structure WordsEntry where
  count : ℕ
  positions : List ℕ
deriving DecidableEq, Repr

/-- One element of `details["fuzzy"][kw]["token_hits"]`. -/
structure FuzzyHit where
  pos : ℕ
  token : String
  score : ℚ
deriving DecidableEq, Repr

/-- Value of `details["fuzzy"][kw]`. -/
structure FuzzyEntry where
  count : ℕ
  token_hits : List FuzzyHit
deriving DecidableEq, Repr

/-- The `details` dict built by `score_matches_for_file`: the two inner
dicts, as insertion-ordered association lists. -/
structure Details where
  words : List (String × WordsEntry)
  fuzzy : List (String × FuzzyEntry)
deriving DecidableEq, Repr

/-- Python dict assignment `d[k] = v` on an insertion-ordered association
list: overwrite in place if the key is present, else append. -/
def dictInsert {β : Type} (d : List (String × β)) (k : String) (v : β) :
    List (String × β) :=
  if d.any (fun p => p.1 == k) then d.map (fun p => if p.1 == k then (k, v) else p)
  else d ++ [(k, v)]

/-- `score_matches_for_file` (lines 38–63).  The source binds
`ntext = normalize_text(raw_text)` and never uses it; the dead binding is
omitted.  The first fold is the exact-match loop over `keywords`, the second
the fuzzy loop guarded by `use_fuzzy and HAS_RAPIDFUZZ`. -/
def score_matches_for_file (hasRF : Bool) (ratio : String → String → ℚ)
    (raw_text : String) (keywords : List String)
    (fuzzy_threshold : ℚ) (use_fuzzy : Bool) : ℕ × Details :=
  let tokens := tokenize raw_text
  let step1 := keywords.foldl
    (fun (st : List (String × WordsEntry) × ℕ) kw =>
      let nkw := normalize_text kw
      let pos := find_exact_word_positions tokens nkw
      if pos.isEmpty then st
      else (dictInsert st.1 kw ⟨pos.length, pos⟩, st.2 + pos.length))
    ([], 0)
  let step2 :=
    if use_fuzzy && hasRF then
      keywords.foldl
        (fun (st : List (String × FuzzyEntry) × ℕ) kw =>
          let nkw := normalize_text kw
          let hits := fuzzy_token_hits hasRF ratio tokens nkw fuzzy_threshold
          if hits.isEmpty then st
          else (dictInsert st.1 kw
                  ⟨hits.length, hits.map (fun h => ⟨h.1, h.2.1, h.2.2⟩)⟩,
                st.2 + hits.length))
        ([], 0)
    else ([], 0)
  (step1.2 + step2.2, ⟨step1.1, step2.1⟩)

/-! ## Filesystem model and the labeling pipeline -/

/-- The directory state: a finite list of files as `(path, contents)` pairs,
in `os.walk` enumeration order.  File contents are the text the read step
produces: the `utf-8` read with the `latin-1, errors="ignore"` fallback
always yields some string (the fallback decoder cannot raise), so reading an
existing file never fails. -/
abbrev FS : Type := List (String × String)

instance exceptDecEq {ε α : Type} [DecidableEq ε] [DecidableEq α] :
    DecidableEq (Except ε α) := fun a b =>
  match a, b with
  | .error e, .error e' => decidable_of_iff (e = e') (by simp)
  | .error _, .ok _ => isFalse (by simp)
  | .ok _, .error _ => isFalse (by simp)
  | .ok x, .ok y => decidable_of_iff (x = y) (by simp)

/-- `os.path.exists` against the directory state. -/
def fsExists (fs : FS) (p : String) : Bool :=
  (fs : List (String × String)).any (fun e => e.1 == p)

/-- `os.rename src dst`: the file keeps its contents under the new path. -/
def fsRename (fs : FS) (src dst : String) : FS :=
  (fs : List (String × String)).map (fun e => if e.1 == src then (dst, e.2) else e)

/-- `open(fp).read()`: fails (FileNotFoundError) only if the path is absent;
decode errors are absorbed by the `latin-1, errors="ignore"` fallback. -/
def fsRead (fs : FS) (p : String) : Except String String :=
  match (fs : List (String × String)).find? (fun e => e.1 == p) with
  | some e => .ok e.2
  | none => .error ("FileNotFoundError: " ++ p)

/-- Index of the last occurrence of `c` in `cs` (Python `str.rfind`,
as `none` instead of `-1`). -/
def lastIdxOf (cs : List Char) (c : Char) : Option ℕ :=
  ((cs.enum.filter (fun p => p.2 == c)).map (·.1)).getLast?

/-- `os.path.split` (posixpath): split at the final slash; the head keeps a
trailing slash only when it is all slashes. -/
def os_path_split (p : String) : String × String :=
  match lastIdxOf p.data '/' with
  | none => ("", p)
  | some i =>
    let head := p.data.take (i + 1)
    let tail := p.data.drop (i + 1)
    let head' := if head.all (fun c => c == '/') then head
                 else (head.reverse.dropWhile (fun c => c == '/')).reverse
    (⟨head'⟩, ⟨tail⟩)

/-- `os.path.join folder name` (posixpath, two arguments). -/
def os_path_join (folder name : String) : String :=
  if name.data.take 1 = ['/'] then name
  else if folder = "" then name
  else if folder.data.getLast? = some '/' then folder ++ name
  else folder ++ "/" ++ name

/-- `os.path.splitext` (posixpath): split at the last dot after the last
slash, unless every leading character of the basename up to that dot is a
dot. -/
def os_path_splitext (p : String) : String × String :=
  let cs := p.data
  let sepIdx : ℤ := match lastIdxOf cs '/' with | none => -1 | some i => i
  let dotIdx : ℤ := match lastIdxOf cs '.' with | none => -1 | some i => i
  if sepIdx < dotIdx then
    let between := (cs.take dotIdx.toNat).drop (sepIdx + 1).toNat
    if between.any (fun c => c != '.') then
      (⟨cs.take dotIdx.toNat⟩, ⟨cs.drop dotIdx.toNat⟩)
    else (p, "")
  else (p, "")

/-- The ambient state `search_and_label` runs under: whether rapidfuzz
loaded successfully, the similarity backend, and for each attempted
`os.rename` whether the OS performs it or raises `OSError`. -/
structure Config where
  hasRF : Bool
  ratio : String → String → ℚ
  renameOk : String → String → Bool

/-- `mark_file` (lines 65–79): build the target name by appending
`_Approved`/`_Canceled` to the stem, skip when the target already exists,
otherwise rename (which the OS may refuse, raising). -/
def mark_file (renameOk : String → String → Bool) (fs : FS) (path : String)
    (approved : Bool) : Except String (FS × String) :=
  let fn := os_path_split path
  let be := os_path_splitext fn.2
  let new_name := if approved then be.1 ++ "_Approved" ++ be.2
                  else be.1 ++ "_Canceled" ++ be.2
  let new_path := os_path_join fn.1 new_name
  if !fsExists fs new_path then
    if renameOk path new_path then .ok (fsRename fs path new_path, new_path)
    else .error ("OSError: rename " ++ path)
  else .ok (fs, new_path)

/-- The extension filter of `_iter_paths` (lines 90–93): keep a file iff the
extension list is empty (falsy) or the lowercased basename ends with one of
the extensions. -/
def fnameMatches (extensions : List String) (fname : String) : Bool :=
  extensions.isEmpty || extensions.any (fun ext => ext.data.isSuffixOf (pyLower fname).data)

/-- `_iter_paths` (lines 82–94) in the directory case: `os.walk` enumerates
the directory state in list order; the single-file branch (`os.path.isfile`)
is not part of the claims and is not modelled. -/
def iter_paths (fs : FS) (extensions : List String) : List String :=
  ((fs : List (String × String)).filter
    (fun e => fnameMatches extensions (os_path_split e.1).2)).map (·.1)

/-- One element of the `results` list of `search_and_label`. -/
structure RItem where
  path : String
  score : ℕ
  approved : Bool
  details : Details
deriving DecidableEq, Repr

/-- Line 122 of `search_and_label`: `approved = score >= min_score`. -/
def decideApproved (score : ℕ) (min_score : ℤ) : Bool :=
  decide ((score : ℤ) ≥ min_score)

/-- The per-file loop of `search_and_label` (lines 107–130): read, score,
decide, mark, and accumulate one result per file in processing order. -/
def search_loop (cfg : Config) (keywords : List String) (min_score : ℤ)
    (use_fuzzy : Bool) (fuzzy_threshold : ℚ) :
    FS → List String → Except String (FS × List RItem)
  | fs, [] => .ok (fs, [])
  | fs, fp :: rest =>
    match fsRead fs fp with
    | .error e => .error e
    | .ok raw =>
      let sd := score_matches_for_file cfg.hasRF cfg.ratio raw keywords fuzzy_threshold use_fuzzy
      let approved := decideApproved sd.1 min_score
      match mark_file cfg.renameOk fs fp approved with
      | .error e => .error e
      | .ok m =>
        match search_loop cfg keywords min_score use_fuzzy fuzzy_threshold m.1 rest with
        | .error e => .error e
        | .ok tail => .ok (tail.1, ⟨fp, sd.1, approved, sd.2⟩ :: tail.2)

/-- Stable insertion of one item into a list already sorted by score
descending: the new item goes after every element whose score is ≥ its
own. -/
def insertByScoreDesc (x : RItem) : List RItem → List RItem
  | [] => [x]
  | y :: ys => if y.score ≥ x.score then y :: insertByScoreDesc x ys
               else x :: y :: ys

/-- Line 132: `results.sort(key=lambda x: x["score"], reverse=True)` —
Python's stable sort by score descending, modelled as stable insertion
sort. -/
def pySortByScoreDesc (l : List RItem) : List RItem :=
  l.foldl (fun acc x => insertByScoreDesc x acc) []

/-- `search_and_label` (lines 97–133): enumerate once, process each file in
order, then sort the results by score descending.  The `dirpath` argument is
replaced by the directory state `fs`. -/
def search_and_label (cfg : Config) (fs : FS) (keywords : List String)
    (min_score : ℤ) (extensions : Option (List String)) (use_fuzzy : Bool)
    (fuzzy_threshold : ℚ) : Except String (FS × List RItem) :=
  let exts := extensions.getD [".txt", ".md", ".text", ".csv", ".log"]
  match search_loop cfg keywords min_score use_fuzzy fuzzy_threshold fs (iter_paths fs exts) with
  | .error e => .error e
  | .ok (fs', rs) => .ok (fs', pySortByScoreDesc rs)

/-- A `Config` with no fuzzy backend and an OS that performs every rename:
the default environment for claims not about fuzzy matching or rename
failures. -/
def plainConfig : Config :=
  ⟨false, fun _ _ => 0, fun _ _ => true⟩

/-- A concrete similarity backend for witnesses: ratio 100 on identical
strings, 0 otherwise (the claims only constrain `ratio s s`). -/
def idRatio : String → String → ℚ := fun a b => if a = b then 100 else 0

/-- The target path `mark_file` computes (lines 66–73): the
`_Approved`/`_Canceled` marker inserted between stem and extension. -/
def markTarget (path : String) (approved : Bool) : String :=
  os_path_join (os_path_split path).1
    ((os_path_splitext (os_path_split path).2).1 ++
      (if approved then "_Approved" else "_Canceled") ++
      (os_path_splitext (os_path_split path).2).2)

/-- The sort order of line 132: score descending. -/
def scoreGE (a b : RItem) : Prop := b.score ≤ a.score

/-! ## Helper lemmas -/

theorem lookup_mem {α β : Type} [BEq α] [LawfulBEq α] {l : List (α × β)} {k : α}
    {v : β} (h : l.lookup k = some v) : (k, v) ∈ l := by
  induction l with
  | nil => simp [List.lookup] at h
  | cons p ps ih =>
    cases p with
    | mk a b =>
      rw [List.lookup] at h
      by_cases hk : k = a
      · subst hk
        simp at h
        subst h
        exact List.mem_cons_self _ _
      · have hk' : (k == a) = false := by simp [hk]
        simp [hk'] at h
        exact List.mem_cons_of_mem _ (ih h)

theorem pyLowerChar_idem (c : Char) : pyLowerChar (pyLowerChar c) = pyLowerChar c := by
  cases hl : lowerTable.lookup c with
  | none =>
    show pyLowerChar ((lowerTable.lookup c).getD c) = (lowerTable.lookup c).getD c
    simp [pyLowerChar, hl]
  | some v =>
    have hm : (c, v) ∈ lowerTable := lookup_mem hl
    have hall : ∀ p ∈ lowerTable, pyLowerChar p.2 = p.2 := by decide
    show pyLowerChar ((lowerTable.lookup c).getD c) = (lowerTable.lookup c).getD c
    rw [hl]
    exact hall (c, v) hm

theorem normChar_output_fixed (c d : Char) (hd : d ∈ pyNFKDChar (pyLowerChar c))
    (hc : pyCombining d = false) : pyLowerChar d = d ∧ pyNFKDChar d = [d] := by
  cases hnf : nfkdTable.lookup (pyLowerChar c) with
  | some v =>
    have hm : (pyLowerChar c, v) ∈ nfkdTable := lookup_mem hnf
    have hall : ∀ p ∈ nfkdTable, ∀ d' ∈ p.2, pyCombining d' = false →
        pyLowerChar d' = d' ∧ pyNFKDChar d' = [d'] := by decide
    have hdv : d ∈ v := by simpa [pyNFKDChar, hnf] using hd
    exact hall _ hm d hdv hc
  | none =>
    have he : pyNFKDChar (pyLowerChar c) = [pyLowerChar c] := by simp [pyNFKDChar, hnf]
    rw [he] at hd
    simp at hd
    subst hd
    exact ⟨pyLowerChar_idem c, he⟩

theorem map_eq_self_of {α : Type} (f : α → α) :
    ∀ l : List α, (∀ c ∈ l, f c = c) → l.map f = l
  | [], _ => rfl
  | c :: cs, h => by
    simp only [List.map_cons, h c (List.mem_cons_self _ _)]
    rw [map_eq_self_of f cs (fun x hx => h x (List.mem_cons_of_mem _ hx))]

theorem flatMap_eq_self_of {α : Type} (f : α → List α) :
    ∀ l : List α, (∀ c ∈ l, f c = [c]) → l.flatMap f = l
  | [], _ => rfl
  | c :: cs, h => by
    simp only [List.flatMap_cons, h c (List.mem_cons_self _ _)]
    rw [flatMap_eq_self_of f cs (fun x hx => h x (List.mem_cons_of_mem _ hx))]
    rfl

theorem normalize_text_chars_fixed (s : String) :
    ∀ d ∈ (normalize_text s).data,
      pyLowerChar d = d ∧ pyNFKDChar d = [d] ∧ pyCombining d = false := by
  intro d hd
  have hd' : d ∈ ((s.data.map pyLowerChar).flatMap pyNFKDChar).filter
      (fun c => !pyCombining c) := hd
  rw [List.mem_filter] at hd'
  have hcomb : pyCombining d = false := by simpa using hd'.2
  obtain ⟨e, he, hde⟩ := List.mem_flatMap.mp hd'.1
  obtain ⟨c, _, hce⟩ := List.mem_map.mp he
  subst hce
  obtain ⟨h1, h2⟩ := normChar_output_fixed c d hde hcomb
  exact ⟨h1, h2, hcomb⟩

theorem foldl_snd_append_ge {α β : Type} {F : β × ℕ → α → β × ℕ}
    (hF : ∀ st a, st.2 ≤ (F st a).2) (init : β × ℕ) (l : List α) (a : α) :
    (List.foldl F init l).2 ≤ (List.foldl F init (l ++ [a])).2 := by
  rw [List.foldl_append, List.foldl_cons, List.foldl_nil]
  exact hF _ a

theorem foldl_snd_le_of_step {α β : Type} {F G : β × ℕ → α → β × ℕ}
    (h : ∀ s t a, s.2 ≤ t.2 → (F s a).2 ≤ (G t a).2) :
    ∀ (l : List α) (s t : β × ℕ), s.2 ≤ t.2 →
      (l.foldl F s).2 ≤ (l.foldl G t).2 := by
  intro l
  induction l with
  | nil => intro s t hst; simpa using hst
  | cons a l ih =>
    intro s t hst
    rw [List.foldl_cons, List.foldl_cons]
    exact ih _ _ (h s t a hst)

theorem filterMap_length_mono {α β : Type} {f g : α → Option β}
    (h : ∀ a, (f a).isSome = true → (g a).isSome = true) :
    ∀ l : List α, (l.filterMap f).length ≤ (l.filterMap g).length := by
  intro l
  induction l with
  | nil => simp
  | cons a l ih =>
    rw [List.filterMap_cons, List.filterMap_cons]
    cases hf : f a with
    | some b =>
      have := h a (by rw [hf]; rfl)
      cases hg : g a with
      | none => rw [hg] at this; simp at this
      | some c => simpa using ih
    | none =>
      cases hg : g a with
      | none => exact ih
      | some c => exact le_trans ih (by simp)

theorem fuzzy_token_hits_length_mono (hasRF : Bool) (ratio : String → String → ℚ)
    (tokens : List String) (kw : String) {ft ft' : ℚ} (h : ft' ≤ ft) :
    (fuzzy_token_hits hasRF ratio tokens kw ft).length
      ≤ (fuzzy_token_hits hasRF ratio tokens kw ft').length := by
  rw [fuzzy_token_hits, fuzzy_token_hits]
  cases hasRF with
  | false => simp
  | true =>
    simp only [Bool.not_true, Bool.false_eq_true, if_false]
    refine filterMap_length_mono (fun p hp => ?_) _
    by_cases hge : ratio p.2 kw ≥ ft
    · rw [if_pos (le_trans h hge)]; rfl
    · rw [if_neg hge] at hp; simp at hp

theorem insertByScoreDesc_perm (x : RItem) :
    ∀ l : List RItem, (insertByScoreDesc x l).Perm (x :: l)
  | [] => List.Perm.refl _
  | y :: ys => by
    rw [insertByScoreDesc]
    split
    · exact ((insertByScoreDesc_perm x ys).cons y).trans (List.Perm.swap x y ys)
    · exact List.Perm.refl _

theorem foldl_insert_perm :
    ∀ (l acc : List RItem),
      (l.foldl (fun acc x => insertByScoreDesc x acc) acc).Perm (acc ++ l) := by
  intro l
  induction l with
  | nil => intro acc; simp
  | cons x xs ih =>
    intro acc
    rw [List.foldl_cons]
    refine ((ih _).trans ?_).trans List.perm_middle.symm
    exact (insertByScoreDesc_perm x acc).append_right xs

theorem pySortByScoreDesc_perm (l : List RItem) : (pySortByScoreDesc l).Perm l := by
  simpa using foldl_insert_perm l []

theorem search_loop_approved (cfg : Config) (kws : List String) (ms : ℤ)
    (uf : Bool) (ft : ℚ) :
    ∀ (ps : List String) (fs : FS) (pr : FS × List RItem),
      search_loop cfg kws ms uf ft fs ps = .ok pr →
      ∀ r ∈ pr.2, r.approved = decideApproved r.score ms := by
  intro ps
  induction ps with
  | nil =>
    intro fs pr h r hr
    rw [search_loop] at h
    cases h
    simp at hr
  | cons fp rest ih =>
    intro fs pr h r hr
    rw [search_loop] at h
    split at h
    · exact absurd h (by simp)
    · dsimp only at h
      split at h
      · exact absurd h (by simp)
      · split at h
        · exact absurd h (by simp)
        · rename_i tail heq
          cases h
          rcases List.mem_cons.mp hr with hr1 | hr2
          · subst hr1; rfl
          · exact ih _ _ heq r hr2

theorem mark_file_eq (rok : String → String → Bool) (fs : FS) (path : String)
    (approved : Bool) :
    mark_file rok fs path approved =
      if fsExists fs (markTarget path approved) = true
      then .ok (fs, markTarget path approved)
      else if rok path (markTarget path approved) = true
        then .ok (fsRename fs path (markTarget path approved), markTarget path approved)
        else .error ("OSError: rename " ++ path) := by
  cases approved with
  | true =>
    by_cases he : fsExists fs (markTarget path true) = true
    · simp_all [mark_file, markTarget]
    · by_cases hr : rok path (markTarget path true) = true <;>
        simp_all [mark_file, markTarget]
  | false =>
    by_cases he : fsExists fs (markTarget path false) = true
    · simp_all [mark_file, markTarget]
    · by_cases hr : rok path (markTarget path false) = true <;>
        simp_all [mark_file, markTarget]

theorem insertByScoreDesc_sorted (x : RItem) :
    ∀ {l : List RItem}, l.Sorted scoreGE → (insertByScoreDesc x l).Sorted scoreGE
  | [], _ => by simp [insertByScoreDesc, scoreGE]
  | y :: ys, h => by
    obtain ⟨hy, hys⟩ := List.sorted_cons.mp h
    rw [insertByScoreDesc]
    split
    · rename_i hc
      refine List.sorted_cons.mpr ⟨?_, insertByScoreDesc_sorted x hys⟩
      intro b hb
      rcases List.mem_cons.mp ((insertByScoreDesc_perm x ys).mem_iff.mp hb) with hb1 | hb2
      · subst hb1; exact hc
      · exact hy b hb2
    · rename_i hc
      have hlt : y.score ≤ x.score := le_of_lt (lt_of_not_ge hc)
      refine List.sorted_cons.mpr ⟨?_, h⟩
      intro b hb
      rcases List.mem_cons.mp hb with hb1 | hb2
      · subst hb1; exact hlt
      · exact le_trans (hy b hb2) hlt

theorem pySortByScoreDesc_sorted (l : List RItem) :
    (pySortByScoreDesc l).Sorted scoreGE := by
  rw [pySortByScoreDesc]
  have : ∀ (l acc : List RItem), acc.Sorted scoreGE →
      (l.foldl (fun acc x => insertByScoreDesc x acc) acc).Sorted scoreGE := by
    intro l
    induction l with
    | nil => intro acc h; simpa using h
    | cons x xs ih =>
      intro acc h
      rw [List.foldl_cons]
      exact ih _ (insertByScoreDesc_sorted x h)
  exact this l [] (by simp)

theorem search_loop_paths (cfg : Config) (kws : List String) (ms : ℤ)
    (uf : Bool) (ft : ℚ) :
    ∀ (ps : List String) (fs : FS) (pr : FS × List RItem),
      search_loop cfg kws ms uf ft fs ps = .ok pr →
      pr.2.map RItem.path = ps := by
  intro ps
  induction ps with
  | nil =>
    intro fs pr h
    rw [search_loop] at h
    cases h
    rfl
  | cons fp rest ih =>
    intro fs pr h
    rw [search_loop] at h
    split at h
    · exact absurd h (by simp)
    · dsimp only at h
      split at h
      · exact absurd h (by simp)
      · split at h
        · exact absurd h (by simp)
        · rename_i tail heq
          cases h
          simp only [List.map_cons]
          rw [ih _ _ heq]

theorem fsRead_ok_of_exists {fs : FS} {p : String} (h : fsExists fs p = true) :
    ∃ c, fsRead fs p = .ok c := by
  rw [fsExists, List.any_eq_true] at h
  obtain ⟨e, he, hep⟩ := h
  rw [fsRead]
  cases hf : fs.find? (fun e => e.1 == p) with
  | some e' => exact ⟨e'.2, rfl⟩
  | none => exact absurd hep (by simpa using List.find?_eq_none.mp hf e he)

theorem fsExists_rename {fs : FS} {p src dst : String} (h : fsExists fs p = true)
    (hne : p ≠ src) : fsExists (fsRename fs src dst) p = true := by
  rw [fsExists, List.any_eq_true] at h
  obtain ⟨e, he, hep⟩ := h
  have hep' : e.1 = p := by simpa using hep
  rw [fsExists, List.any_eq_true]
  refine ⟨if e.1 == src then (dst, e.2) else e, List.mem_map.mpr ⟨e, he, rfl⟩, ?_⟩
  have hsrc : (e.1 == src) = false := by simp [hep', hne]
  rw [hsrc]
  simpa using hep'

theorem iter_paths_exists (fs : FS) (exts : List String) :
    ∀ p ∈ iter_paths fs exts, fsExists fs p = true := by
  intro p hp
  rw [iter_paths] at hp
  obtain ⟨e, he, hep⟩ := List.mem_map.mp hp
  rw [fsExists, List.any_eq_true]
  exact ⟨e, (List.mem_filter.mp he).1, by simp [hep]⟩

theorem search_loop_ok (cfg : Config) (hok : ∀ s d, cfg.renameOk s d = true)
    (kws : List String) (ms : ℤ) (uf : Bool) (ft : ℚ) :
    ∀ (ps : List String) (fs : FS), ps.Nodup →
      (∀ p ∈ ps, fsExists fs p = true) →
      ∃ pr : FS × List RItem, search_loop cfg kws ms uf ft fs ps = .ok pr ∧
        pr.2.map RItem.path = ps := by
  intro ps
  induction ps with
  | nil => intro fs _ _; exact ⟨(fs, []), by rw [search_loop], rfl⟩
  | cons fp rest ih =>
    intro fs hnd hex
    obtain ⟨c, hc⟩ := fsRead_ok_of_exists (hex fp (List.mem_cons_self _ _))
    rw [search_loop, hc]
    dsimp only
    rw [mark_file_eq, hok fp _]
    set A := decideApproved
      (score_matches_for_file cfg.hasRF cfg.ratio c kws ft uf).1 ms with hA
    by_cases he : fsExists fs (markTarget fp A) = true
    · rw [if_pos he]
      dsimp only
      obtain ⟨pr, hpr, hmap⟩ := ih fs (List.nodup_cons.mp hnd).2
        (fun p hp => hex p (List.mem_cons_of_mem _ hp))
      rw [hpr]
      exact ⟨(pr.1, ⟨fp, _, A, _⟩ :: pr.2), rfl, by simp [hmap]⟩
    · rw [if_neg he, if_pos rfl]
      dsimp only
      have hex' : ∀ p ∈ rest, fsExists (fsRename fs fp (markTarget fp A)) p = true := by
        intro p hp
        have hne : p ≠ fp := fun hpe =>
          (List.nodup_cons.mp hnd).1 (hpe ▸ hp)
        exact fsExists_rename (hex p (List.mem_cons_of_mem _ hp)) hne
      obtain ⟨pr, hpr, hmap⟩ := ih _ (List.nodup_cons.mp hnd).2 hex'
      rw [hpr]
      exact ⟨(pr.1, ⟨fp, _, A, _⟩ :: pr.2), rfl, by simp [hmap]⟩

theorem dictInsert_of_not_mem {β : Type} {d : List (String × β)} {k : String}
    (h : (d.any (fun p => p.1 == k)) = false) (v : β) :
    dictInsert d k v = d ++ [(k, v)] := by
  simp [dictInsert, h]

theorem dict_fold_sum {β : Type} (cnt : β → ℕ) (emp : String → Bool)
    (val : String → β) (num : String → ℕ) (hv : ∀ kw, cnt (val kw) = num kw) :
    ∀ kws : List String, kws.Nodup →
      ∀ acc : List (String × β) × ℕ,
        (∀ q ∈ acc.1, ∀ k ∈ kws, q.1 ≠ k) →
        (kws.foldl (fun st kw => if emp kw then st
            else (dictInsert st.1 kw (val kw), st.2 + num kw)) acc).2
          + (acc.1.map (fun p => cnt p.2)).sum
        = acc.2 + ((kws.foldl (fun st kw => if emp kw then st
            else (dictInsert st.1 kw (val kw), st.2 + num kw)) acc).1.map
            (fun p => cnt p.2)).sum := by
  intro kws
  induction kws with
  | nil => intro _ acc _; simp
  | cons kw rest ih =>
    intro hnd acc hkeys
    simp only [List.foldl_cons]
    by_cases he : emp kw = true
    · simp only [if_pos he]
      exact ih (List.nodup_cons.mp hnd).2 acc
        (fun q hq k hk => hkeys q hq k (List.mem_cons_of_mem _ hk))
    · simp only [if_neg he]
      have hnotin : (acc.1.any (fun p => p.1 == kw)) = false := by
        rw [Bool.eq_false_iff]
        intro hcon
        rw [List.any_eq_true] at hcon
        obtain ⟨p, hp, hpk⟩ := hcon
        exact hkeys p hp kw (List.mem_cons_self _ _) (by simpa using hpk)
      have hkeys' : ∀ q ∈ (dictInsert acc.1 kw (val kw), acc.2 + num kw).1,
          ∀ k ∈ rest, q.1 ≠ k := by
        intro q hq k hk
        rw [dictInsert_of_not_mem hnotin] at hq
        rcases List.mem_append.mp hq with hq1 | hq2
        · exact hkeys q hq1 k (List.mem_cons_of_mem _ hk)
        · have hqe : q = (kw, val kw) := by simpa using hq2
          subst hqe
          intro hqk
          have hkk : kw = k := hqk
          exact (List.nodup_cons.mp hnd).1 (hkk ▸ hk)
      have ihe := ih (List.nodup_cons.mp hnd).2
        (dictInsert acc.1 kw (val kw), acc.2 + num kw) hkeys'
      rw [dictInsert_of_not_mem hnotin] at ihe ⊢
      simp only [List.map_append, List.sum_append, List.map_cons, List.map_nil,
        List.sum_cons, List.sum_nil, hv] at ihe ⊢
      omega

theorem dict_fold_sum0 {β : Type} (cnt : β → ℕ) (emp : String → Bool)
    (val : String → β) (num : String → ℕ) (hv : ∀ kw, cnt (val kw) = num kw)
    (kws : List String) (hnd : kws.Nodup) :
    (kws.foldl (fun st kw => if emp kw then st
        else (dictInsert st.1 kw (val kw), st.2 + num kw)) ([], 0)).2
      = ((kws.foldl (fun st kw => if emp kw then st
        else (dictInsert st.1 kw (val kw), st.2 + num kw)) ([], 0)).1.map
        (fun p => cnt p.2)).sum := by
  have h := dict_fold_sum cnt emp val num hv kws hnd ([], 0) (by simp)
  simpa using h

/-! ## Claim theorems -/

/-- C9: Normalization is idempotent: for every string `s`,
`normalize_text (normalize_text s) = normalize_text s` — the function
lower-cases, NFKD-decomposes and strips combining marks, is total (the
embedding is a Lean function, so no exception is possible), and returns the
empty string on empty input. -/
theorem C9_normalize_idempotent :
    (∀ s : String, normalize_text (normalize_text s) = normalize_text s) ∧
    normalize_text "" = "" := by
  constructor
  · intro s
    have hfix := normalize_text_chars_fixed s
    show (⟨(((normalize_text s).data.map pyLowerChar).flatMap pyNFKDChar).filter
      (fun c => !pyCombining c)⟩ : String) = normalize_text s
    rw [map_eq_self_of pyLowerChar _ (fun c hc => (hfix c hc).1)]
    rw [flatMap_eq_self_of pyNFKDChar _ (fun c hc => (hfix c hc).2.1)]
    rw [List.filter_eq_self.mpr (fun c hc => by simp [(hfix c hc).2.2])]
  · rfl

/-- C4: for every text and keyword, the number of positions returned by
`find_exact_word_positions` on the tokenized text and the normalized keyword
equals the number of tokens string-equal to the normalized keyword; and the
text "Motor 150 kW motor" with keyword "motor" yields exactly the two exact
hits at positions 0 and 3. -/
theorem C4_exact_match_count :
    (∀ (text k : String),
      (find_exact_word_positions (tokenize text) (normalize_text k)).length
        = (tokenize text).countP (fun t => t == normalize_text k)) ∧
    find_exact_word_positions (tokenize "Motor 150 kW motor")
      (normalize_text "motor") = [0, 3] := by
  constructor
  · intro text k
    rw [find_exact_word_positions, List.length_map, List.countP_eq_length_filter]
    have h := List.filter_map (p := fun t => t == normalize_text k)
      (f := Prod.snd) (tokenize text).enum
    rw [List.enum_map_snd] at h
    rw [h, List.length_map]
    rfl
  · decide

/-- C6: with fuzzy enabled and the backend available, if the similarity of
identical strings is 100 and the threshold is at most 100, every exact-hit
position is also among the fuzzy-hit positions for that keyword. -/
theorem C6_fuzzy_superset (ratio : String → String → ℚ) (tokens : List String)
    (kw : String) (threshold : ℚ) (hthr : threshold ≤ 100)
    (hid : ∀ s : String, ratio s s = 100) :
    ∀ i ∈ find_exact_word_positions tokens kw,
      i ∈ (fuzzy_token_hits true ratio tokens kw threshold).map (fun h => h.1) := by
  intro i hi
  rw [find_exact_word_positions] at hi
  obtain ⟨p, hp, hpi⟩ := List.mem_map.mp hi
  rw [List.mem_filter] at hp
  have heq : p.2 = kw := by simpa using hp.2
  have hge : ratio p.2 kw ≥ threshold := by rw [heq, hid]; exact hthr
  have hmem : (p.1, p.2, ratio p.2 kw) ∈ fuzzy_token_hits true ratio tokens kw threshold := by
    rw [fuzzy_token_hits]
    simp only [Bool.not_true, Bool.false_eq_true, if_false]
    exact List.mem_filterMap.mpr ⟨p, hp.1, if_pos hge⟩
  exact List.mem_map.mpr ⟨(p.1, p.2, ratio p.2 kw), hmem, hpi⟩

/-- C6 witness: the token list ["motor"] with keyword "motor" at threshold 80
under a backend giving identical strings ratio 100: the exact hit at
position 0 is reported as a fuzzy hit. -/
theorem C6_fuzzy_superset_witness :
    (80 : ℚ) ≤ 100 ∧
    0 ∈ (fuzzy_token_hits true idRatio ["motor"] "motor" 80).map (fun h => h.1) :=
  ⟨by norm_num,
   C6_fuzzy_superset idRatio ["motor"] "motor" 80 (by norm_num)
     (fun s => by simp [idRatio]) 0 (by decide)⟩

/-- C5: the total score of `score_matches_for_file` is monotonic: appending
a keyword never decreases it, and (for a fixed keyword list) lowering the
fuzzy threshold never decreases it. -/
theorem C5_score_monotonic :
    (∀ (hasRF : Bool) (ratio : String → String → ℚ) (raw : String)
        (kws : List String) (kw : String) (ft : ℚ) (uf : Bool),
      (score_matches_for_file hasRF ratio raw kws ft uf).1
        ≤ (score_matches_for_file hasRF ratio raw (kws ++ [kw]) ft uf).1) ∧
    (∀ (hasRF : Bool) (ratio : String → String → ℚ) (raw : String)
        (kws : List String) (uf : Bool) (ft ft' : ℚ), ft' ≤ ft →
      (score_matches_for_file hasRF ratio raw kws ft uf).1
        ≤ (score_matches_for_file hasRF ratio raw kws ft' uf).1) := by
  constructor
  · intro hasRF ratio raw kws kw ft uf
    simp only [score_matches_for_file]
    apply Nat.add_le_add
    · apply foldl_snd_append_ge
      intro st a
      dsimp only
      split
      · exact le_refl _
      · exact Nat.le_add_right _ _
    · cases hg : uf && hasRF with
      | false => simp
      | true =>
        simp only [if_pos rfl]
        apply foldl_snd_append_ge
        intro st a
        dsimp only
        split
        · exact le_refl _
        · exact Nat.le_add_right _ _
  · intro hasRF ratio raw kws uf ft ft' hle
    simp only [score_matches_for_file]
    apply Nat.add_le_add
    · exact le_refl _
    · cases hg : uf && hasRF with
      | false => simp
      | true =>
        simp only [if_pos rfl]
        apply foldl_snd_le_of_step _ kws ([], 0) ([], 0) (le_refl _)
        intro s t a hst
        dsimp only
        have hlen := fuzzy_token_hits_length_mono hasRF ratio (tokenize raw)
          (normalize_text a) hle
        by_cases e2 : (fuzzy_token_hits hasRF ratio (tokenize raw)
            (normalize_text a) ft').isEmpty = true
        · have hz : (fuzzy_token_hits hasRF ratio (tokenize raw)
              (normalize_text a) ft').length = 0 := by
            rwa [List.isEmpty_iff_length_eq_zero] at e2
          have e1 : (fuzzy_token_hits hasRF ratio (tokenize raw)
              (normalize_text a) ft).isEmpty = true := by
            rw [List.isEmpty_iff_length_eq_zero]
            omega
          rw [if_pos e1, if_pos e2]
          exact hst
        · by_cases e1 : (fuzzy_token_hits hasRF ratio (tokenize raw)
              (normalize_text a) ft).isEmpty = true
          · rw [if_pos e1, if_neg e2]
            exact le_trans hst (Nat.le_add_right _ _)
          · rw [if_neg e1, if_neg e2]
            exact Nat.add_le_add hst hlen

/-- C5 witness: concrete instances of both monotonicity directions, with the
threshold lowered from 80 to 70. -/
theorem C5_score_monotonic_witness :
    ((70 : ℚ) ≤ 80) ∧
    (score_matches_for_file true idRatio "Motor 150 kW motor" ["motor"] 80 true).1
      ≤ (score_matches_for_file true idRatio "Motor 150 kW motor"
          (["motor"] ++ ["kw"]) 80 true).1 ∧
    (score_matches_for_file true idRatio "Motor 150 kW motor" ["motor"] 80 true).1
      ≤ (score_matches_for_file true idRatio "Motor 150 kW motor" ["motor"] 70 true).1 :=
  ⟨by norm_num,
   C5_score_monotonic.1 true idRatio "Motor 150 kW motor" ["motor"] "kw" 80 true,
   C5_score_monotonic.2 true idRatio "Motor 150 kW motor" ["motor"] true 80 70
     (by norm_num)⟩

/-- C8: the verdict is the inclusive comparison `score >= min_score`
(line 122): every result entry of `search_and_label` carries
`approved = decideApproved score min_score`; moreover score 2 against
min_score 2 approves, score 1 against min_score 2 rejects, and min_score 0
approves every score including 0. -/
theorem C8_threshold_decision :
    (∀ (cfg : Config) (fs : FS) (kws : List String) (ms : ℤ)
        (exts : Option (List String)) (uf : Bool) (ft : ℚ) (fs' : FS)
        (rs : List RItem),
      search_and_label cfg fs kws ms exts uf ft = .ok (fs', rs) →
      ∀ r ∈ rs, r.approved = decideApproved r.score ms) ∧
    decideApproved 2 2 = true ∧ decideApproved 1 2 = false ∧
    (∀ s : ℕ, decideApproved s 0 = true) := by
  refine ⟨?_, by decide, by decide, ?_⟩
  · intro cfg fs kws ms exts uf ft fs' rs h r hr
    rw [search_and_label] at h
    split at h
    · exact absurd h (by simp)
    · rename_i fs0 rs0 heq
      rw [Except.ok.injEq, Prod.mk.injEq] at h
      have hperm := pySortByScoreDesc_perm rs0
      rw [← h.2] at hr
      exact search_loop_approved cfg kws ms uf ft _ _ _ heq r (hperm.mem_iff.mp hr)
  · intro s
    simp [decideApproved]

/-- C8 witness: the one-file run where "motor motor" scores 2 against
min_score 2; the theorem applied to it yields `approved = decideApproved 2 2`
for the returned entry. -/
theorem C8_threshold_decision_witness :
    (⟨"a.txt", 2, true, ⟨[("motor", ⟨2, [0, 1]⟩)], []⟩⟩ : RItem).approved
      = decideApproved 2 2 :=
  C8_threshold_decision.1 plainConfig [("a.txt", "motor motor")] ["motor"] 2
    none false 80 [("a_Approved.txt", "motor motor")]
    [⟨"a.txt", 2, true, ⟨[("motor", ⟨2, [0, 1]⟩)], []⟩⟩]
    (by decide) _ (by decide)

/-- C7: `mark_file` computes its target by inserting `_Approved`/`_Canceled`
before the extension (`markTarget`); with a succeeding OS rename it renames
to the target when that name is free and otherwise leaves the file set
untouched, and whenever the target name exists the transition is a skip —
no error and no overwrite — under every rename oracle. -/
theorem C7_mark_file_transition (fs : FS) (path : String) (approved : Bool) :
    mark_file (fun _ _ => true) fs path approved =
      .ok (if fsExists fs (markTarget path approved) = true
           then (fs, markTarget path approved)
           else (fsRename fs path (markTarget path approved), markTarget path approved)) ∧
    (∀ renameOk : String → String → Bool,
      fsExists fs (markTarget path approved) = true →
      mark_file renameOk fs path approved = .ok (fs, markTarget path approved)) := by
  constructor
  · rw [mark_file_eq]
    by_cases he : fsExists fs (markTarget path approved) = true <;> simp [he]
  · intro rok he
    rw [mark_file_eq, if_pos he]

/-- C7 witness: with `a_Approved.txt` already present, marking `a.txt`
approved is skipped with no error even under an OS oracle that would refuse
every rename, and no file is overwritten. -/
theorem C7_mark_file_transition_witness :
    fsExists [("a.txt", "x"), ("a_Approved.txt", "y")] (markTarget "a.txt" true) = true ∧
    mark_file (fun _ _ => false) [("a.txt", "x"), ("a_Approved.txt", "y")] "a.txt" true
      = .ok ([("a.txt", "x"), ("a_Approved.txt", "y")], markTarget "a.txt" true) :=
  ⟨by decide,
   (C7_mark_file_transition [("a.txt", "x"), ("a_Approved.txt", "y")] "a.txt" true).2
     (fun _ _ => false) (by decide)⟩

/-- C1 counterexample: the pipeline is not idempotent.  One run over
`a.txt` = "motor motor" (keyword "motor", min_score 2) renames it to
`a_Approved.txt`; a second run over the result does not detect the file as
already labeled — it renames it again to `a_Approved_Approved.txt`, so the
second run's file set differs from the first run's output. -/
theorem C1_counterexample :
    search_and_label plainConfig [("a.txt", "motor motor")] ["motor"] 2 none false 80
      = .ok ([("a_Approved.txt", "motor motor")],
          [⟨"a.txt", 2, true, ⟨[("motor", ⟨2, [0, 1]⟩)], []⟩⟩]) ∧
    search_and_label plainConfig [("a_Approved.txt", "motor motor")] ["motor"] 2
        none false 80
      = .ok ([("a_Approved_Approved.txt", "motor motor")],
          [⟨"a_Approved.txt", 2, true, ⟨[("motor", ⟨2, [0, 1]⟩)], []⟩⟩]) ∧
    [("a_Approved_Approved.txt", "motor motor")] ≠ [("a_Approved.txt", "motor motor")] := by
  refine ⟨by decide, by decide, by decide⟩

/-- C1 amended: no file is ever overwritten (a transition whose target name
exists is a skip, with no error, under any oracle), but re-running is not
idempotent: an already-labeled file is relabeled again with a second marker
appended before the extension, as long as the doubled target name is absent
(witnessed by the second run on `a_Approved.txt`). -/
theorem C1_no_overwrite_but_double_label :
    (∀ (rok : String → String → Bool) (fs : FS) (path : String) (approved : Bool),
      fsExists fs (markTarget path approved) = true →
      mark_file rok fs path approved = .ok (fs, markTarget path approved)) ∧
    markTarget "a_Approved.txt" true = "a_Approved_Approved.txt" ∧
    search_and_label plainConfig [("a_Approved.txt", "motor motor")] ["motor"] 2
        none false 80
      = .ok ([("a_Approved_Approved.txt", "motor motor")],
          [⟨"a_Approved.txt", 2, true, ⟨[("motor", ⟨2, [0, 1]⟩)], []⟩⟩]) := by
  refine ⟨?_, by decide, by decide⟩
  intro rok fs path approved he
  rw [mark_file_eq, if_pos he]

/-- C1 amended-theorem witness: the skip clause applied at a concrete state
where the `_Canceled` target already exists. -/
theorem C1_no_overwrite_but_double_label_witness :
    fsExists [("b.txt", "z"), ("b_Canceled.txt", "z")] (markTarget "b.txt" false) = true ∧
    mark_file (fun _ _ => true) [("b.txt", "z"), ("b_Canceled.txt", "z")] "b.txt" false
      = .ok ([("b.txt", "z"), ("b_Canceled.txt", "z")], markTarget "b.txt" false) :=
  ⟨by decide,
   C1_no_overwrite_but_double_label.1 (fun _ _ => true)
     [("b.txt", "z"), ("b_Canceled.txt", "z")] "b.txt" false (by decide)⟩

/-- C3 counterexample: the returned results list is NOT in processing
order.  With `a.txt` scoring 0 and `b.txt` scoring 2, the walker enumerates
`[a.txt, b.txt]` but `search_and_label` returns `b.txt` first (line 132
sorts by score descending). -/
theorem C3_counterexample :
    search_and_label plainConfig [("a.txt", "nothing here"), ("b.txt", "motor motor")]
        ["motor"] 2 none false 80
      = .ok ([("a_Canceled.txt", "nothing here"), ("b_Approved.txt", "motor motor")],
          [⟨"b.txt", 2, true, ⟨[("motor", ⟨2, [0, 1]⟩)], []⟩⟩,
           ⟨"a.txt", 0, false, ⟨[], []⟩⟩]) ∧
    iter_paths [("a.txt", "nothing here"), ("b.txt", "motor motor")]
        [".txt", ".md", ".text", ".csv", ".log"] = ["a.txt", "b.txt"] ∧
    ([⟨"b.txt", 2, true, ⟨[("motor", ⟨2, [0, 1]⟩)], []⟩⟩,
      ⟨"a.txt", 0, false, (⟨[], []⟩ : Details)⟩] : List RItem).map RItem.path
      ≠ ["a.txt", "b.txt"] :=
  ⟨by decide, by decide, by decide⟩

/-- C3 amended: the run produces one `{path, score, approved, details}`
entry per enumerated file, built in processing order (`items`, whose paths
are exactly the walker's enumeration), but the list `search_and_label`
returns is the stable sort of those entries by score descending — a
permutation of the processing-order list, sorted by `scoreGE`. -/
theorem C3_results_sorted_by_score (cfg : Config) (fs : FS) (kws : List String)
    (ms : ℤ) (exts : Option (List String)) (uf : Bool) (ft : ℚ) (fs' : FS)
    (rs : List RItem)
    (h : search_and_label cfg fs kws ms exts uf ft = .ok (fs', rs)) :
    ∃ items : List RItem,
      search_loop cfg kws ms uf ft fs
          (iter_paths fs (exts.getD [".txt", ".md", ".text", ".csv", ".log"]))
        = .ok (fs', items) ∧
      items.map RItem.path
        = iter_paths fs (exts.getD [".txt", ".md", ".text", ".csv", ".log"]) ∧
      rs = pySortByScoreDesc items ∧ rs.Perm items ∧ rs.Sorted scoreGE := by
  rw [search_and_label] at h
  split at h
  · exact absurd h (by simp)
  · rename_i fs0 rs0 heq
    rw [Except.ok.injEq, Prod.mk.injEq] at h
    obtain ⟨h1, h2⟩ := h
    subst h1
    refine ⟨rs0, heq, search_loop_paths cfg kws ms uf ft _ _ _ heq, h2.symm, ?_, ?_⟩
    · rw [← h2]; exact pySortByScoreDesc_perm rs0
    · rw [← h2]; exact pySortByScoreDesc_sorted rs0

/-- C3 witness: the theorem applied to the two-file run of the
counterexample's directory. -/
theorem C3_results_sorted_by_score_witness :
    ∃ items : List RItem,
      search_loop plainConfig ["motor"] 2 false 80
          [("a.txt", "nothing here"), ("b.txt", "motor motor")]
          (iter_paths [("a.txt", "nothing here"), ("b.txt", "motor motor")]
            [".txt", ".md", ".text", ".csv", ".log"])
        = .ok ([("a_Canceled.txt", "nothing here"), ("b_Approved.txt", "motor motor")],
            items) ∧
      items.map RItem.path
        = iter_paths [("a.txt", "nothing here"), ("b.txt", "motor motor")]
            [".txt", ".md", ".text", ".csv", ".log"] ∧
      ([⟨"b.txt", 2, true, ⟨[("motor", ⟨2, [0, 1]⟩)], []⟩⟩,
        ⟨"a.txt", 0, false, ⟨[], []⟩⟩] : List RItem) = pySortByScoreDesc items ∧
      ([⟨"b.txt", 2, true, ⟨[("motor", ⟨2, [0, 1]⟩)], []⟩⟩,
        ⟨"a.txt", 0, false, ⟨[], []⟩⟩] : List RItem).Perm items ∧
      ([⟨"b.txt", 2, true, ⟨[("motor", ⟨2, [0, 1]⟩)], []⟩⟩,
        ⟨"a.txt", 0, false, ⟨[], []⟩⟩] : List RItem).Sorted scoreGE :=
  C3_results_sorted_by_score plainConfig
    [("a.txt", "nothing here"), ("b.txt", "motor motor")] ["motor"] 2 none false 80
    [("a_Canceled.txt", "nothing here"), ("b_Approved.txt", "motor motor")]
    [⟨"b.txt", 2, true, ⟨[("motor", ⟨2, [0, 1]⟩)], []⟩⟩,
     ⟨"a.txt", 0, false, ⟨[], []⟩⟩]
    (by decide)

/-- C2 counterexample: a rename failure is NOT caught.  With an OS oracle
that raises on renaming `a.txt`, the whole run aborts with the error and
returns no results list at all, so `b.txt` is never covered. -/
theorem C2_counterexample :
    search_and_label ⟨false, fun _ _ => 0, fun src _ => src != "a.txt"⟩
        [("a.txt", "motor motor"), ("b.txt", "motor motor")] ["motor"] 2 none false 80
      = .error "OSError: rename a.txt" := by decide

/-- C2 amended: decode errors are absorbed by the `latin-1` fallback and
rename collisions are skipped, so a run in which the OS performs every
attempted rename (over distinct enumerated paths) completes and returns a
results list covering every enumerated file; but an error raised by
`os.rename` itself propagates and aborts the whole run (see the
counterexample). -/
theorem C2_rename_error_aborts_run (cfg : Config) (fs : FS) (kws : List String)
    (ms : ℤ) (exts : Option (List String)) (uf : Bool) (ft : ℚ)
    (hok : ∀ s d, cfg.renameOk s d = true)
    (hnd : (iter_paths fs (exts.getD [".txt", ".md", ".text", ".csv", ".log"])).Nodup) :
    ∃ (fs' : FS) (rs : List RItem),
      search_and_label cfg fs kws ms exts uf ft = .ok (fs', rs) ∧
      (rs.map RItem.path).Perm
        (iter_paths fs (exts.getD [".txt", ".md", ".text", ".csv", ".log"])) := by
  obtain ⟨pr, hpr, hmap⟩ := search_loop_ok cfg hok kws ms uf ft _ fs hnd
    (iter_paths_exists fs _)
  refine ⟨pr.1, pySortByScoreDesc pr.2, ?_, ?_⟩
  · rw [search_and_label]
    rw [hpr]
  · have hperm := (pySortByScoreDesc_perm pr.2).map RItem.path
    rw [hmap] at hperm
    exact hperm

/-- C2 amended-theorem witness: the always-succeeding OS oracle over two
distinct files yields a completed run covering both. -/
theorem C2_rename_error_aborts_run_witness :
    ∃ (fs' : FS) (rs : List RItem),
      search_and_label plainConfig [("a.txt", "x"), ("b.txt", "motor motor")]
          ["motor"] 2 none false 80 = .ok (fs', rs) ∧
      (rs.map RItem.path).Perm
        (iter_paths [("a.txt", "x"), ("b.txt", "motor motor")]
          [".txt", ".md", ".text", ".csv", ".log"]) :=
  C2_rename_error_aborts_run plainConfig [("a.txt", "x"), ("b.txt", "motor motor")]
    ["motor"] 2 none false 80 (fun _ _ => rfl) (by decide)

/-- C10: for pairwise-distinct keywords, the total score of
`score_matches_for_file` equals the sum of the `count` fields over both
evidence channels; with a duplicated keyword the dict keeps one entry per
keyword string while the score counts each occurrence ("motor" twice on
"Motor 150 kW motor" scores 4 yet the counts sum to 2), so distinctness is
required. -/
theorem C10_score_equals_evidence_sum :
    (∀ (hasRF : Bool) (ratio : String → String → ℚ) (raw : String)
        (kws : List String) (ft : ℚ) (uf : Bool), kws.Nodup →
      (score_matches_for_file hasRF ratio raw kws ft uf).1
        = ((score_matches_for_file hasRF ratio raw kws ft uf).2.words.map
            (fun p => p.2.count)).sum
          + ((score_matches_for_file hasRF ratio raw kws ft uf).2.fuzzy.map
            (fun p => p.2.count)).sum) ∧
    (score_matches_for_file false (fun _ _ => 0) "Motor 150 kW motor"
        ["motor", "motor"] 80 false).1 = 4 ∧
    ((score_matches_for_file false (fun _ _ => 0) "Motor 150 kW motor"
        ["motor", "motor"] 80 false).2.words.map (fun p => p.2.count)).sum
      + ((score_matches_for_file false (fun _ _ => 0) "Motor 150 kW motor"
        ["motor", "motor"] 80 false).2.fuzzy.map (fun p => p.2.count)).sum = 2 := by
  refine ⟨?_, by decide, by decide⟩
  intro hasRF ratio raw kws ft uf hnd
  have h1 := dict_fold_sum0 WordsEntry.count
    (fun kw => (find_exact_word_positions (tokenize raw) (normalize_text kw)).isEmpty)
    (fun kw => (⟨(find_exact_word_positions (tokenize raw) (normalize_text kw)).length,
      find_exact_word_positions (tokenize raw) (normalize_text kw)⟩ : WordsEntry))
    (fun kw => (find_exact_word_positions (tokenize raw) (normalize_text kw)).length)
    (fun _ => rfl) kws hnd
  have h2' := dict_fold_sum0 FuzzyEntry.count
    (fun kw => (fuzzy_token_hits hasRF ratio (tokenize raw) (normalize_text kw) ft).isEmpty)
    (fun kw => (⟨(fuzzy_token_hits hasRF ratio (tokenize raw) (normalize_text kw) ft).length,
      (fuzzy_token_hits hasRF ratio (tokenize raw) (normalize_text kw) ft).map
        (fun h => ⟨h.1, h.2.1, h.2.2⟩)⟩ : FuzzyEntry))
    (fun kw => (fuzzy_token_hits hasRF ratio (tokenize raw) (normalize_text kw) ft).length)
    (fun _ => rfl) kws hnd
  have h2 : (if uf && hasRF then
        kws.foldl (fun st kw =>
          if (fuzzy_token_hits hasRF ratio (tokenize raw) (normalize_text kw) ft).isEmpty
          then st
          else (dictInsert st.1 kw
            (⟨(fuzzy_token_hits hasRF ratio (tokenize raw) (normalize_text kw) ft).length,
             (fuzzy_token_hits hasRF ratio (tokenize raw) (normalize_text kw) ft).map
               (fun h => ⟨h.1, h.2.1, h.2.2⟩)⟩ : FuzzyEntry),
            st.2 + (fuzzy_token_hits hasRF ratio (tokenize raw) (normalize_text kw) ft).length))
          (([] : List (String × FuzzyEntry)), 0)
      else (([] : List (String × FuzzyEntry)), 0)).2
      = ((if uf && hasRF then
        kws.foldl (fun st kw =>
          if (fuzzy_token_hits hasRF ratio (tokenize raw) (normalize_text kw) ft).isEmpty
          then st
          else (dictInsert st.1 kw
            (⟨(fuzzy_token_hits hasRF ratio (tokenize raw) (normalize_text kw) ft).length,
             (fuzzy_token_hits hasRF ratio (tokenize raw) (normalize_text kw) ft).map
               (fun h => ⟨h.1, h.2.1, h.2.2⟩)⟩ : FuzzyEntry),
            st.2 + (fuzzy_token_hits hasRF ratio (tokenize raw) (normalize_text kw) ft).length))
          (([] : List (String × FuzzyEntry)), 0)
      else (([] : List (String × FuzzyEntry)), 0)).1.map
        (fun p => p.2.count)).sum := by
    cases hg : uf && hasRF with
    | false => simp
    | true =>
      simp only [if_pos rfl]
      exact h2'
  exact congrArg₂ (· + ·) h1 h2

/-- C10 witness: two distinct keywords on "Motor 150 kW motor": the score
and the evidence-count sum agree. -/
theorem C10_score_equals_evidence_sum_witness :
    (score_matches_for_file false (fun _ _ => 0) "Motor 150 kW motor"
        ["motor", "kw"] 80 false).1
      = ((score_matches_for_file false (fun _ _ => 0) "Motor 150 kW motor"
          ["motor", "kw"] 80 false).2.words.map (fun p => p.2.count)).sum
        + ((score_matches_for_file false (fun _ _ => 0) "Motor 150 kW motor"
          ["motor", "kw"] 80 false).2.fuzzy.map (fun p => p.2.count)).sum :=
  C10_score_equals_evidence_sum.1 false (fun _ _ => 0) "Motor 150 kW motor"
    ["motor", "kw"] 80 false (by decide)

/-! ## Sanity checks of the embedding against the source's behaviour -/

theorem sanity_normalize : normalize_text "Motor 150 kW motor" = "motor 150 kw motor" := by decide

theorem sanity_tokenize : tokenize "Motor 150 kW motor" = ["motor", "150", "kw", "motor"] := by decide

theorem sanity_diacritics : normalize_text "Škoda Octavia, výkon 90 kW" = "skoda octavia, vykon 90 kw" := by decide

theorem sanity_splitext : os_path_splitext "a.txt" = ("a", ".txt") ∧
    os_path_splitext ".txt" = (".txt", "") ∧
    os_path_splitext "archive.tar.gz" = ("archive.tar", ".gz") ∧
    os_path_split "d/a.txt" = ("d", "a.txt") := by
  refine ⟨by decide, by decide, by decide, by decide⟩

theorem sanity_mark_file : mark_file (fun _ _ => true) [("a.txt", "motor motor")] "a.txt" true =
    .ok ([("a_Approved.txt", "motor motor")], "a_Approved.txt") := by decide

theorem sanity_pipeline : search_and_label plainConfig [("a.txt", "motor motor")] ["motor"] 2 none false 80 =
    .ok ([("a_Approved.txt", "motor motor")],
      [⟨"a.txt", 2, true, ⟨[("motor", ⟨2, [0, 1]⟩)], []⟩⟩]) := by decide

end CityCarCheck
